import Mathlib

/-!
Verification of the soft404 training pipeline (soft404/train.py).

The pipeline streams labeled crawl items, featurizes them, builds domain-grouped
cross-validation folds, trains a linear classifier incrementally per fold and
aggregates metrics.  Pure functions of the source are embedded directly; the two
helpers living in soft404/utils (the pickle stream reader and the batching
helper) and the grouped fold splitter (sklearn LabelKFold) are modelled from the
specification, as noted on their definitions.
-/

namespace Soft404

/-- One crawled page record, as produced by the stream reader. -/
structure Item where
  idx : Nat
  url : String
  status : Nat
  lang : String
  text : String
  title : String
  blocks : List (String × String)
deriving DecidableEq, Repr

/-! ### Tokenization (train.py: token_pattern, tokenize) -/

/-- A word-constituent character for the token pattern: letter, digit or
underscore (the regex class used by the token pattern of train.py). -/
def isWordChar (c : Char) : Bool :=
  c.isAlpha || c.isDigit || c = '_'

/-- Helper for wordRuns: acc holds the reversed current run of word
characters; a non-word character (or the end of input) closes the run. -/
def wordRunsAux : List Char → List Char → List (List Char)
  | [], acc => if acc = [] then [] else [acc.reverse]
  | c :: cs, acc =>
    if isWordChar c then wordRunsAux cs (c :: acc)
    else if acc = [] then wordRunsAux cs [] else acc.reverse :: wordRunsAux cs []

/-- Maximal runs of word-constituent characters of a character list, in order of
occurrence.  Runs of any positive length are produced here; the length filter of
the token pattern is applied by tokenize. -/
def wordRuns (cs : List Char) : List (List Char) :=
  wordRunsAux cs []

/-- tokenize from train.py: all matches of the token pattern, i.e. the maximal
runs of word-constituent characters of length at least two, in order. -/
def tokenize (s : String) : List String :=
  ((wordRuns s.data).filter (fun r => 2 ≤ r.length)).map (fun r => String.mk r)

/-! ### Featurization (train.py: item_to_text, get_xy) -/

/-- item_to_text from train.py: the raw text, then (when the title is
non-empty) each title token with the title marker, then for every block each
token with the tag marker, joined by single spaces. -/
def item_to_text (item : Item) : String :=
  String.intercalate " "
    ([item.text]
      ++ (if item.title = "" then []
          else (tokenize item.title).map (fun w => "__title__" ++ w))
      ++ item.blocks.flatMap
          (fun tb => (tokenize tb.2).map (fun w => "__" ++ tb.1 ++ "__" ++ w)))

/-- The featurized text as the specification describes it: a concatenation of
the raw text field, the marker-tagged title tokens when the title is non-empty,
and the marker-tagged tokens of every block in order. -/
def item_to_text_spec (item : Item) : String :=
  String.intercalate " "
    (item.text ::
      ((if item.title ≠ "" then
          (tokenize item.title).map (fun w => "__title__" ++ w)
        else [])
        ++ ((item.blocks.map
              (fun tb => (tokenize tb.2).map
                (fun w => "__" ++ tb.1 ++ "__" ++ w))).flatten)))

/-- The labels of get_xy from train.py: an item is a positive example exactly
when its status is 404. -/
def get_ys (items : List Item) : List Bool :=
  items.map (fun it => it.status == 404)

/-- get_xy from train.py: featurized texts paired with the 404 labels. -/
def get_xy (items : List Item) : List String × List Bool :=
  (items.map item_to_text, get_ys items)

/-! ### Stream reading (soft404/utils: pickle_stream_reader; train.py: file_reader) -/

/-- Modelled from the spec: pickle_stream_reader of soft404/utils is not under
src/.  Per the specification it yields (idx, item) pairs where idx is the
0-based sequential position in read order, assigned before any filtering, and,
when an index set is supplied, only pairs whose idx is a member are yielded. -/
def pickle_stream_reader (items : List Item) (indices : Option (List Nat)) :
    List (Nat × Item) :=
  items.enum.filter (fun p =>
    match indices with
    | none => true
    | some ix => decide (p.1 ∈ ix))

/-- file_reader from train.py: reads (idx, item) pairs from the stream reader,
stops at the first pair whose idx reaches the limit, stores idx on the item and
yields only items whose status is 200 or 404. -/
def file_reader (items : List Item) (indices : Option (List Nat))
    (limit : Option Nat) : List Item :=
  (((pickle_stream_reader items indices).takeWhile (fun p =>
      match limit with
      | none => true
      | some l => decide (p.1 < l))).map
    (fun p => { p.2 with idx := p.1 })).filter
    (fun it => it.status == 200 || it.status == 404)

/-! ### Identity resolution (train.py: to_data_idx) -/

/-- to_data_idx from train.py: the requested logical ids are deduplicated (the
Python set), each position of the urls list whose position number is a
requested id contributes its stored data index, and the assertion that the
result has exactly one entry per distinct requested id is modelled by
returning none (the assertion failure) when the counts differ. -/
def to_data_idx (indices : List Nat) (urls : List (Nat × String)) :
    Option (List Nat) :=
  let iset := indices.dedup
  let result := urls.enum.filterMap
    (fun p => if p.1 ∈ iset then some p.2.1 else none)
  if result.length = iset.length then some result else none

/-! ### Batching and incremental training (soft404/utils: batches; train.py: train_clf) -/

/-- Modelled from the spec: batches of soft404/utils is not under src/.  Per
the specification the training indices are processed in consecutive batches of
the batch size; a partially filled final batch is still processed and empty
batches are skipped, so for a non-empty list there are ceil(length / size)
batches.  Assumes a positive batch size, as in the source defaults. -/
def batches (lst : List Nat) (size : Nat) : List (List Nat) :=
  (List.range ((lst.length + size - 1) / size)).map
    (fun i => (lst.drop (i * size)).take size)

/-- The classifier state as seen by this development: the log of incremental
fit calls, each recording the featurized texts and labels of its batch.  The
numeric update of the linear model is an external collaborator. -/
abbrev Clf := List (List String × List Bool)

/-- train_clf from train.py: for each of n_epochs epochs, shuffle the training
indices (the shuffle is modelled as an explicitly passed reordering, one per
epoch, since numpy reseeds from process state) and perform one incremental fit
per batch of the shuffled indices.  Returns the classifier log together with
the final contents of the (mutated in place) training index array. -/
def train_clf (clf : Clf) (data : List Nat → List Item) (train_idx : List Nat)
    (n_epochs batch_size : Nat) (shuffle : Nat → List Nat → List Nat) :
    Clf × List Nat :=
  (List.range n_epochs).foldl
    (fun st epoch =>
      let idx := shuffle epoch st.2
      ((batches idx batch_size).foldl (fun c b => c ++ [get_xy (data b)]) st.1,
        idx))
    (clf, train_idx)

/-- check_class_weights from train.py: shuffles the training index array in
place, then computes balanced class weights from the labels of the first 1000
shuffled training items (the weight computation itself is an external
collaborator, so its input labels are returned).  Returns those labels together
with the final contents of the mutated training index array. -/
def check_class_weights (data : List Nat → List Item) (train_idx : List Nat)
    (shuffle : List Nat → List Nat) : List Bool × List Nat :=
  let idx := shuffle train_idx
  (get_ys (data (idx.take 1000)), idx)

/-! ### Metric aggregation (train.py: main, metric collection loop) -/

/-- One step of the metric collection loop of main: append the value v to the
entry of metric name k (creating the entry at the end when absent), exactly as
a defaultdict of lists behaves under insertion order. -/
def add_metric : List (String × List ℚ) → String × ℚ → List (String × List ℚ)
  | [], kv => [(kv.1, [kv.2])]
  | e :: rest, kv =>
    if e.1 = kv.1 then (e.1, e.2 ++ [kv.2]) :: rest
    else e :: add_metric rest kv

/-- The metric collection loop of main: every fold result's (name, value)
pairs are appended into the per-name value lists, folds in arrival order. -/
def all_metrics (results : List (List (String × ℚ))) : List (String × List ℚ) :=
  results.foldl (fun acc fold => fold.foldl add_metric acc) []

/-- The values reported for metric name k across folds, read directly off the
fold results in order: the reference point for the grouping loop. -/
def metric_values (results : List (List (String × ℚ))) (k : String) : List ℚ :=
  results.flatMap (fun fold => (fold.filter (fun kv => kv.1 == k)).map (·.2))

/-- np.mean on the collected values of one metric. -/
def np_mean (l : List ℚ) : ℚ := l.sum / l.length

/-- np.std squared, i.e. the population variance used by numpy (ddof 0). -/
def np_var (l : List ℚ) : ℚ :=
  ((l.map (fun x => (x - np_mean l) ^ 2)).sum) / l.length

/-- The final report of main: the collected metrics sorted by name, each name
with its mean and twice its standard deviation across folds. -/
noncomputable def aggregate_report (results : List (List (String × ℚ))) :
    List (String × (ℚ × ℝ)) :=
  ((all_metrics results).mergeSort (fun a b => a.1 ≤ b.1)).map
    (fun kv => (kv.1, (np_mean kv.2, 2 * Real.sqrt (np_var kv.2))))

/-! ### Grouped fold splitting (sklearn LabelKFold, called in main) -/

/-- Modelled from the spec: the grouped fold splitter (sklearn LabelKFold,
not part of this repository's sources) groups the identities by their domain
label and distributes whole label groups across the K folds deterministically;
how group sizes are balanced is an implementation freedom of the splitter.
Here each distinct label is assigned, in a fixed order, round-robin to a fold. -/
def label_fold (labels : List String) (K : Nat) (d : String) : Nat :=
  labels.dedup.indexOf d % K

/-- The test side of fold f: the positions of the identity list whose label's
group is assigned to fold f. -/
def test_fold_idx (labels : List String) (K f : Nat) : List Nat :=
  (List.range labels.length).filter
    (fun i => label_fold labels K (labels.getD i "") == f)

/-- The train side of fold f: all remaining positions of the identity list. -/
def train_fold_idx (labels : List String) (K f : Nat) : List Nat :=
  (List.range labels.length).filter
    (fun i => !(label_fold labels K (labels.getD i "") == f))

/-- The domain labels of a fold side, as inspected by the leakage check. -/
def fold_domains (labels : List String) (side : List Nat) : List String :=
  side.map (fun i => labels.getD i "")

/-! ### Theorems: tokenization and featurization -/

lemma wordRunsAux_sound :
    ∀ (cs acc : List Char), (∀ c ∈ acc, isWordChar c) →
      ∀ r ∈ wordRunsAux cs acc, r ≠ [] ∧ ∀ c ∈ r, isWordChar c := by
  intro cs
  induction cs with
  | nil =>
    intro acc hacc r hr
    by_cases h : acc = []
    · simp [wordRunsAux, h] at hr
    · simp [wordRunsAux, h] at hr
      subst hr
      refine ⟨by simpa using h, ?_⟩
      intro c hc
      exact hacc c (List.mem_reverse.mp hc)
  | cons c cs ih =>
    intro acc hacc r hr
    cases hw : isWordChar c with
    | true =>
      simp only [wordRunsAux, hw, if_true] at hr
      refine ih (c :: acc) ?_ r hr
      intro x hx
      rcases List.mem_cons.mp hx with h | h
      · subst h; exact hw
      · exact hacc x h
    | false =>
      simp only [wordRunsAux, hw, Bool.false_eq_true, if_false] at hr
      by_cases ha : acc = []
      · simp only [ha, if_true] at hr
        exact ih [] (by simp) r hr
      · simp only [ha, if_false] at hr
        rcases List.mem_cons.mp hr with h | h
        · subst h
          refine ⟨by simpa using ha, ?_⟩
          intro x hx
          exact hacc x (List.mem_reverse.mp hx)
        · exact ih [] (by simp) r h

/-- C6: tokenize returns only maximal runs of word-constituent characters of
length at least two, in order of occurrence; on the reference inputs it keeps
exactly the length-two-or-more runs (excluding the single character run) and
the empty string yields no token. -/
theorem tokenize_props :
    (∀ s t, t ∈ tokenize s → 2 ≤ t.length ∧ ∀ c ∈ t.data, isWordChar c)
    ∧ tokenize "a1 _b2 c" = ["a1", "_b2"]
    ∧ tokenize "" = [] := by
  refine ⟨?_, by decide, by decide⟩
  intro s t ht
  rcases List.mem_map.mp ht with ⟨r, hr, hrt⟩
  have hrlen := List.of_mem_filter hr
  have hrmem := List.mem_of_mem_filter hr
  have hsound := wordRunsAux_sound s.data [] (by simp) r hrmem
  subst hrt
  refine ⟨by simpa using hrlen, ?_⟩
  intro c hc
  exact hsound.2 c hc

/-- Witness for the hypotheses of tokenize_props at a concrete input. -/
theorem tokenize_props_witness :
    2 ≤ ("a1" : String).length ∧ ∀ c ∈ ("a1" : String).data, isWordChar c :=
  tokenize_props.1 "a1 _b2 c" "a1" (by decide)

/-- C5: the featurized text is the specified concatenation (raw text, then
marker-tagged title tokens exactly when the title is non-empty, then
marker-tagged block tokens in block order), and on the reference item the
title-derived and h1-derived tokens appear marker-tagged among the tokens of
the featurized text while being absent from the bare body text. -/
theorem item_to_text_correct :
    (∀ item, item_to_text item = item_to_text_spec item)
    ∧ item_to_text ⟨0, "u", 200, "en", "go foo bar", "Foo", [("h1", "Bar")]⟩
        = "go foo bar __title__Foo __h1__Bar"
    ∧ "__title__Foo" ∈ tokenize
        (item_to_text ⟨0, "u", 200, "en", "go foo bar", "Foo", [("h1", "Bar")]⟩)
    ∧ "__h1__Bar" ∈ tokenize
        (item_to_text ⟨0, "u", 200, "en", "go foo bar", "Foo", [("h1", "Bar")]⟩)
    ∧ (tokenize "go foo bar").contains "__title__Foo" = false
    ∧ (tokenize "go foo bar").contains "__h1__Bar" = false := by
  refine ⟨?_, by decide, by decide, by decide, by decide, by decide⟩
  intro item
  by_cases h : item.title = "" <;>
    simp [item_to_text, item_to_text_spec, h, List.flatMap_def]

/-! ### Theorems: identity resolution -/

lemma filterMap_if_eq {α β : Type} (g : α → β) (q : α → Prop) [DecidablePred q]
    (l : List α) :
    l.filterMap (fun a => if q a then some (g a) else none)
      = (l.filter (fun a => decide (q a))).map g := by
  induction l with
  | nil => rfl
  | cons a l ih =>
    by_cases h : q a <;> simp [List.filterMap_cons, List.filter_cons, h, ih]

lemma resolved_count (indices : List Nat) (urls : List (Nat × String)) :
    (urls.enum.filterMap
        (fun p => if p.1 ∈ indices.dedup then some p.2.1 else none)).length
      = ((List.range urls.length).filter
          (fun i => decide (i ∈ indices.dedup))).length := by
  rw [filterMap_if_eq (fun p : Nat × (Nat × String) => p.2.1)
    (fun p : Nat × (Nat × String) => p.1 ∈ indices.dedup)]
  rw [List.length_map, ← List.enum_map_fst urls, List.filter_map,
    List.length_map]
  rfl

lemma filter_range_mem_length_lt {iset : List Nat} (hnd : iset.Nodup)
    {n i : Nat} (hi : i ∈ iset) (hni : n ≤ i) :
    ((List.range n).filter (fun x => decide (x ∈ iset))).length < iset.length := by
  classical
  have hnodup : ((List.range n).filter (fun x => decide (x ∈ iset))).Nodup :=
    (List.nodup_range n).filter _
  rw [← List.toFinset_card_of_nodup hnodup, ← List.toFinset_card_of_nodup hnd]
  have hsub : ((List.range n).filter (fun x => decide (x ∈ iset))).toFinset
      ⊆ iset.toFinset.erase i := by
    intro x hx
    rcases List.mem_toFinset.mp hx with hx'
    have hxr := List.mem_of_mem_filter hx'
    have hxi : x ∈ iset := by simpa using List.of_mem_filter hx'
    have hxn : x < n := List.mem_range.mp hxr
    exact Finset.mem_erase.mpr ⟨by omega, List.mem_toFinset.mpr hxi⟩
  calc ((List.range n).filter (fun x => decide (x ∈ iset))).toFinset.card
      ≤ (iset.toFinset.erase i).card := Finset.card_le_card hsub
    _ < iset.toFinset.card :=
        Finset.card_erase_lt_of_mem (List.mem_toFinset.mpr hi)

/-- C2: identity resolution is strict: whenever it succeeds, the resolved list
has exactly one entry per distinct requested logical id, and whenever a
requested id has no position in the urls list, it fails (the assertion)
rather than returning a shorter list. -/
theorem to_data_idx_strict :
    ∀ (indices : List Nat) (urls : List (Nat × String)),
      (∀ r, to_data_idx indices urls = some r →
        r.length = indices.dedup.length)
      ∧ ((∃ i ∈ indices, urls.length ≤ i) → to_data_idx indices urls = none) := by
  intro indices urls
  constructor
  · intro r hr
    simp only [to_data_idx] at hr
    split at hr
    · cases hr
      assumption
    · cases hr
  · rintro ⟨i, hi, hni⟩
    have hne : (urls.enum.filterMap
        (fun p => if p.1 ∈ indices.dedup then some p.2.1 else none)).length
        ≠ indices.dedup.length := by
      rw [resolved_count]
      exact Nat.ne_of_lt (filter_range_mem_length_lt (List.nodup_dedup indices)
        (List.mem_dedup.mpr hi) hni)
    simp only [to_data_idx]
    rw [if_neg hne]

/-- Witness for the hypotheses of to_data_idx_strict at concrete inputs. -/
theorem to_data_idx_strict_witness :
    ([7, 9] : List Nat).length = ([0, 1] : List Nat).dedup.length
    ∧ to_data_idx [2] [(7, "a")] = none :=
  ⟨(to_data_idx_strict [0, 1] [(7, "a"), (9, "b")]).1 [7, 9] (by decide),
   (to_data_idx_strict [2] [(7, "a")]).2 ⟨2, by decide, by decide⟩⟩

/-! ### Theorems: stream reading -/

/-- C3: every item yielded by the stream reader got its idx assigned 0-based
sequentially in read order before any filtering (it is the item stored at
position idx of the raw stream), respects the limit when one is set, has its
idx in the index set when one is provided, and has status 200 or 404. -/
theorem file_reader_yield_props :
    ∀ (items : List Item) (indices : Option (List Nat)) (limit : Option Nat)
      (it : Item), it ∈ file_reader items indices limit →
      (∃ orig, items[it.idx]? = some orig ∧ it = { orig with idx := it.idx })
      ∧ (∀ l, limit = some l → it.idx < l)
      ∧ (∀ ix, indices = some ix → it.idx ∈ ix)
      ∧ (it.status = 200 ∨ it.status = 404) := by
  intro items indices limit it hit
  unfold file_reader at hit
  have hstat := List.of_mem_filter hit
  have hmap := List.mem_of_mem_filter hit
  rcases List.mem_map.mp hmap with ⟨p, hp, hpit⟩
  obtain ⟨i, orig⟩ := p
  have hlim := List.mem_takeWhile_imp hp
  have hmem : (i, orig) ∈ pickle_stream_reader items indices :=
    (List.takeWhile_sublist _).mem hp
  unfold pickle_stream_reader at hmem
  have hix := List.of_mem_filter hmem
  have henum : (i, orig) ∈ items.enum := List.mem_of_mem_filter hmem
  have hget : items[i]? = some orig := List.mk_mem_enum_iff_getElem?.mp henum
  have hidx : it.idx = i := by rw [← hpit]
  refine ⟨⟨orig, by rw [hidx]; exact ⟨hget, by rw [← hpit]⟩⟩, ?_, ?_, ?_⟩
  · intro l hl
    subst hl
    rw [hidx]
    simpa using hlim
  · intro ix hix'
    subst hix'
    rw [hidx]
    simpa using hix
  · have : it.status == 200 || it.status == 404 := hstat
    simpa using this

/-- Witness for the hypotheses of file_reader_yield_props at a concrete
input. -/
theorem file_reader_yield_props_witness :
    (∃ orig, ([⟨7, "u", 404, "en", "t", "", []⟩] :
        List Item)[(⟨0, "u", 404, "en", "t", "", []⟩ : Item).idx]? = some orig
      ∧ (⟨0, "u", 404, "en", "t", "", []⟩ : Item)
          = { orig with idx := (⟨0, "u", 404, "en", "t", "", []⟩ : Item).idx })
    ∧ (∀ l, (some 5 : Option Nat) = some l
        → (⟨0, "u", 404, "en", "t", "", []⟩ : Item).idx < l)
    ∧ (∀ ix, (some [0] : Option (List Nat)) = some ix
        → (⟨0, "u", 404, "en", "t", "", []⟩ : Item).idx ∈ ix)
    ∧ ((⟨0, "u", 404, "en", "t", "", []⟩ : Item).status = 200
        ∨ (⟨0, "u", 404, "en", "t", "", []⟩ : Item).status = 404) :=
  file_reader_yield_props [⟨7, "u", 404, "en", "t", "", []⟩] (some [0]) (some 5)
    ⟨0, "u", 404, "en", "t", "", []⟩ (by decide)

lemma file_reader_idx_pairwise (items : List Item) (indices : Option (List Nat))
    (limit : Option Nat) :
    List.Pairwise (· < ·) ((file_reader items indices limit).map Item.idx) := by
  have hsub : ((file_reader items indices limit).map Item.idx).Sublist
      (List.range items.length) := by
    unfold file_reader
    rw [List.filter_map, List.map_map]
    have hfn : (Item.idx ∘ fun p : Nat × Item => { p.2 with idx := p.1 })
        = Prod.fst := rfl
    rw [hfn, ← List.enum_map_fst items]
    exact ((List.filter_sublist _).trans
      ((List.takeWhile_sublist _).trans
        ((List.filter_sublist _).trans (List.Sublist.refl _)))).map Prod.fst
  exact List.Pairwise.sublist hsub (List.pairwise_lt_range _)

/-- C9: for a fixed dataset and no limit, two independent passes of the stream
reader produce the identical sequence of idx values, in the same order (the
sequence is moreover strictly increasing). -/
theorem file_reader_idx_stable :
    ∀ (items : List Item) (indices : Option (List Nat)) (run1 run2 : List Item),
      run1 = file_reader items indices none →
      run2 = file_reader items indices none →
      run1.map Item.idx = run2.map Item.idx
      ∧ List.Pairwise (· < ·) (run1.map Item.idx) := by
  intro items indices run1 run2 h1 h2
  subst h1
  subst h2
  exact ⟨rfl, file_reader_idx_pairwise items indices none⟩

/-- Witness for the hypotheses of file_reader_idx_stable at a concrete
input. -/
theorem file_reader_idx_stable_witness :
    ((file_reader [⟨0, "u", 200, "en", "t", "", []⟩] none none).map Item.idx
      = (file_reader [⟨0, "u", 200, "en", "t", "", []⟩] none none).map Item.idx)
    ∧ List.Pairwise (· < ·)
        ((file_reader [⟨0, "u", 200, "en", "t", "", []⟩] none none).map
          Item.idx) :=
  file_reader_idx_stable [⟨0, "u", 200, "en", "t", "", []⟩] none _ _ rfl rfl

/-! ### Theorems: incremental training -/

lemma foldl_append_one_length {α : Type} (f : α → List String × List Bool)
    (bs : List α) (c : Clf) :
    (bs.foldl (fun c b => c ++ [f b]) c).length = c.length + bs.length := by
  induction bs generalizing c with
  | nil => simp
  | cons b bs ih =>
    simp only [List.foldl_cons, ih, List.length_append, List.length_cons,
      List.length_nil]
    omega

lemma batches_count (lst : List Nat) (size : Nat) :
    (batches lst size).length = (lst.length + size - 1) / size := by
  simp [batches]

lemma batches_count_one {lst : List Nat} {size : Nat} (h1 : lst ≠ [])
    (h2 : lst.length ≤ size) : (batches lst size).length = 1 := by
  have hpos : 0 < lst.length := List.length_pos.mpr h1
  rw [batches_count]
  have hle : 1 * size ≤ lst.length + size - 1 := by omega
  have hlt : lst.length + size - 1 < (1 + 1) * size := by omega
  exact Nat.div_eq_of_lt_le hle hlt

lemma train_clf_invariant (clf : Clf) (data : List Nat → List Item)
    (train_idx : List Nat) (batch_size : Nat)
    (shuffle : Nat → List Nat → List Nat)
    (hsh : ∀ e l, (shuffle e l).Perm l) :
    ∀ n_epochs,
      ((train_clf clf data train_idx n_epochs batch_size shuffle).2).Perm
          train_idx
      ∧ (train_clf clf data train_idx n_epochs batch_size shuffle).1.length
          = clf.length
            + n_epochs * ((train_idx.length + batch_size - 1) / batch_size) := by
  intro n
  induction n with
  | zero => exact ⟨List.Perm.refl _, by simp [train_clf]⟩
  | succ n ih =>
    have hstep : train_clf clf data train_idx (n + 1) batch_size shuffle
        = (let st := train_clf clf data train_idx n batch_size shuffle
           let idx := shuffle n st.2
           ((batches idx batch_size).foldl
              (fun c b => c ++ [get_xy (data b)]) st.1, idx)) := by
      simp only [train_clf, List.range_succ, List.foldl_append, List.foldl_cons,
        List.foldl_nil]
    rw [hstep]
    have hperm : (shuffle n
        (train_clf clf data train_idx n batch_size shuffle).2).Perm train_idx :=
      (hsh n _).trans ih.1
    refine ⟨hperm, ?_⟩
    rw [foldl_append_one_length, ih.2, batches_count, hperm.length_eq]
    ring

/-- C7 counterexample: invoked as in the source (default n_epochs = 2 and
batch_size = 5000) on a one-element training index set, train_clf performs two
incremental fit updates, not exactly one. -/
theorem train_clf_two_updates_counterexample :
    (train_clf [] (fun _ => []) [0] 2 5000 (fun _ l => l)).1.length = 2
    ∧ ¬ (train_clf [] (fun _ => []) [0] 2 5000 (fun _ l => l)).1.length = 1 := by
  decide

/-- C7 (amended): train_clf on a non-empty training index set no larger than
one batch completes and performs exactly one incremental fit update per epoch,
hence n_epochs updates in total (two under the source defaults). -/
theorem train_clf_small_set_updates :
    ∀ (clf : Clf) (data : List Nat → List Item) (train_idx : List Nat)
      (n_epochs batch_size : Nat) (shuffle : Nat → List Nat → List Nat),
      (∀ e l, (shuffle e l).Perm l) →
      train_idx ≠ [] → train_idx.length ≤ batch_size →
      (train_clf clf data train_idx n_epochs batch_size shuffle).1.length
        = clf.length + n_epochs := by
  intro clf data train_idx n_epochs batch_size shuffle hsh hne hle
  have h := (train_clf_invariant clf data train_idx batch_size shuffle hsh
    n_epochs).2
  have hone : (train_idx.length + batch_size - 1) / batch_size = 1 := by
    have hb : (batches train_idx batch_size).length = 1 :=
      batches_count_one hne hle
    rwa [batches_count] at hb
  rw [h, hone, Nat.mul_one]

/-- Witness for the hypotheses of train_clf_small_set_updates at a concrete
input. -/
theorem train_clf_small_set_updates_witness :
    (train_clf [] (fun _ => []) [3, 4] 2 5000 (fun _ l => l)).1.length
      = ([] : Clf).length + 2 :=
  train_clf_small_set_updates [] (fun _ => []) [3, 4] 2 5000 (fun _ l => l)
    (fun _ _ => List.Perm.refl _) (by decide) (by decide)

/-- C10: train_clf and check_class_weights shuffle the caller's training index
array in place: afterwards the array holds the same multiset of indices (any
in-place shuffle outcome is a permutation), and on a concrete input with a
concrete shuffle outcome the array is not left in its original order. -/
theorem train_idx_mutated_in_place :
    (∀ (clf : Clf) (data : List Nat → List Item) (train_idx : List Nat)
        (n_epochs batch_size : Nat) (shuffle : Nat → List Nat → List Nat),
      (∀ e l, (shuffle e l).Perm l) →
      ((train_clf clf data train_idx n_epochs batch_size shuffle).2).Perm
        train_idx)
    ∧ (∀ (data : List Nat → List Item) (train_idx : List Nat)
        (shuffle : List Nat → List Nat),
      (shuffle train_idx).Perm train_idx →
      ((check_class_weights data train_idx shuffle).2).Perm train_idx)
    ∧ (train_clf [] (fun _ => []) [0, 1] 1 5000 (fun _ l => l.reverse)).2
        ≠ [0, 1]
    ∧ (check_class_weights (fun _ => []) [0, 1] List.reverse).2 ≠ [0, 1] := by
  refine ⟨?_, ?_, by decide, by decide⟩
  · intro clf data train_idx n_epochs batch_size shuffle hsh
    exact (train_clf_invariant clf data train_idx batch_size shuffle hsh
      n_epochs).1
  · intro data train_idx shuffle hsh
    exact hsh

/-- Witness for the hypotheses of train_idx_mutated_in_place at concrete
inputs. -/
theorem train_idx_mutated_in_place_witness :
    ((train_clf [] (fun _ => []) [5] 2 5000 (fun _ l => l)).2).Perm [5]
    ∧ ((check_class_weights (fun _ => []) [5] (fun l => l)).2).Perm [5] :=
  ⟨train_idx_mutated_in_place.1 [] (fun _ => []) [5] 2 5000 (fun _ l => l)
      (fun _ _ => List.Perm.refl _),
   train_idx_mutated_in_place.2.1 (fun _ => []) [5] (fun l => l)
      (List.Perm.refl _)⟩

/-! ### Theorems: grouped fold splitting -/

lemma mem_test_fold_idx {labels : List String} {K f i : Nat} :
    i ∈ test_fold_idx labels K f
      ↔ i < labels.length ∧ label_fold labels K (labels.getD i "") = f := by
  simp [test_fold_idx, List.mem_filter]

lemma mem_train_fold_idx {labels : List String} {K f i : Nat} :
    i ∈ train_fold_idx labels K f
      ↔ i < labels.length ∧ label_fold labels K (labels.getD i "") ≠ f := by
  simp [train_fold_idx, List.mem_filter]

/-- C4: with a positive fold count every identity position appears in exactly
one fold's test split (it is in the test split of its own label's fold, that
fold number is below K, and it is in no other fold's test split), and every
test split member is an identity position. -/
theorem folds_test_partition :
    ∀ (labels : List String) (K : Nat), 0 < K →
      (∀ i, i < labels.length →
        ∃ f, f < K ∧ i ∈ test_fold_idx labels K f
          ∧ ∀ g, i ∈ test_fold_idx labels K g → g = f)
      ∧ (∀ f i, i ∈ test_fold_idx labels K f → i < labels.length) := by
  intro labels K hK
  constructor
  · intro i hi
    refine ⟨label_fold labels K (labels.getD i ""), Nat.mod_lt _ hK, ?_, ?_⟩
    · exact mem_test_fold_idx.mpr ⟨hi, rfl⟩
    · intro g hg
      exact (mem_test_fold_idx.mp hg).2.symm
  · intro f i hi
    exact (mem_test_fold_idx.mp hi).1

/-- Witness for the hypotheses of folds_test_partition at a concrete input. -/
theorem folds_test_partition_witness :
    ∃ f, f < 2 ∧ 0 ∈ test_fold_idx ["a", "b", "a"] 2 f
      ∧ ∀ g, 0 ∈ test_fold_idx ["a", "b", "a"] 2 g → g = f :=
  (folds_test_partition ["a", "b", "a"] 2 (by decide)).1 0 (by decide)

/-- C1: for every fold, the registered domains (computed by the domain
extractor from the items' urls) occurring among the fold's test identities are
disjoint from those occurring among the fold's train identities. -/
theorem folds_no_domain_leakage :
    ∀ (get_domain : String → String) (urls : List String) (K f : Nat)
      (d : String),
      d ∈ fold_domains (urls.map get_domain)
          (test_fold_idx (urls.map get_domain) K f) →
      d ∉ fold_domains (urls.map get_domain)
          (train_fold_idx (urls.map get_domain) K f) := by
  intro get_domain urls K f d hdtest hdtrain
  set labels := urls.map get_domain with hlabels
  rcases List.mem_map.mp hdtest with ⟨i, hi, hid⟩
  rcases List.mem_map.mp hdtrain with ⟨j, hj, hjd⟩
  have hif : label_fold labels K (labels.getD i "") = f :=
    (mem_test_fold_idx.mp hi).2
  have hjf : label_fold labels K (labels.getD j "") ≠ f :=
    (mem_train_fold_idx.mp hj).2
  rw [hid] at hif
  rw [hjd] at hjf
  exact hjf hif

/-- Witness for the hypotheses of folds_no_domain_leakage at a concrete
input. -/
theorem folds_no_domain_leakage_witness :
    "a" ∉ fold_domains ((["a", "b"] : List String).map (fun u => u))
        (train_fold_idx ((["a", "b"] : List String).map (fun u => u)) 2 0) :=
  folds_no_domain_leakage (fun u => u) ["a", "b"] 2 0 "a" (by decide)

/-! ### Theorems: metric aggregation -/

/-- Appending values to an optional collected-value list: no values leave the
entry untouched, otherwise the values extend the entry (creating it when
absent).  Describes what one defaultdict entry goes through. -/
def optAppend (o : Option (List ℚ)) (vs : List ℚ) : Option (List ℚ) :=
  match vs with
  | [] => o
  | _ =>
    match o with
    | none => some vs
    | some ws => some (ws ++ vs)

lemma optAppend_append (o : Option (List ℚ)) (us vs : List ℚ) :
    optAppend (optAppend o us) vs = optAppend o (us ++ vs) := by
  cases us with
  | nil => rfl
  | cons u us =>
    cases vs with
    | nil => cases o <;> simp [optAppend]
    | cons v vs => cases o <;> simp [optAppend]

lemma lookup_add_metric (k : String) :
    ∀ (acc : List (String × List ℚ)) (k' : String) (v : ℚ),
      List.lookup k (add_metric acc (k', v))
        = if k = k' then optAppend (List.lookup k acc) [v]
          else List.lookup k acc := by
  intro acc
  induction acc with
  | nil =>
    intro k' v
    by_cases h : k = k'
    · have hb : (k == k') = true := beq_iff_eq.mpr h
      simp [add_metric, List.lookup, optAppend, h, hb]
    · have hb : (k == k') = false := beq_eq_false_iff_ne.mpr h
      simp [add_metric, List.lookup, h, hb]
  | cons e rest ih =>
    intro k' v
    obtain ⟨a, b⟩ := e
    by_cases he : a = k'
    · simp only [add_metric, if_pos he]
      by_cases hk : k = k'
      · have hka : (k == a) = true := beq_iff_eq.mpr (by rw [hk, he])
        simp [List.lookup, hka, optAppend, hk, he]
      · have hka : (k == a) = false :=
          beq_eq_false_iff_ne.mpr (fun h => hk (h.trans he))
        simp [List.lookup, hka, hk]
    · simp only [add_metric, if_neg he]
      by_cases hka : k = a
      · have hb : (k == a) = true := beq_iff_eq.mpr hka
        have hkk : ¬ k = k' := fun h => he (hka.symm.trans h)
        simp [List.lookup, hb, hkk, he]
      · have hb : (k == a) = false := beq_eq_false_iff_ne.mpr hka
        simp [List.lookup, hb, ih k' v]

lemma lookup_foldl_add_metric (k : String) :
    ∀ (fold : List (String × ℚ)) (acc : List (String × List ℚ)),
      List.lookup k (fold.foldl add_metric acc)
        = optAppend (List.lookup k acc)
            ((fold.filter (fun kv => kv.1 == k)).map (·.2)) := by
  intro fold
  induction fold with
  | nil => intro acc; rfl
  | cons kv rest ih =>
    intro acc
    obtain ⟨k', v⟩ := kv
    simp only [List.foldl_cons, List.filter_cons]
    rw [ih, lookup_add_metric]
    by_cases h : k = k'
    · have hb : (k' == k) = true := beq_iff_eq.mpr h.symm
      simp only [hb, if_pos h, List.map_cons]
      rw [optAppend_append]
      rfl
    · have hb : (k' == k) = false := beq_eq_false_iff_ne.mpr (fun h' => h h'.symm)
      simp only [hb, if_neg h]
      rfl

lemma lookup_all_metrics_go (k : String) :
    ∀ (results : List (List (String × ℚ))) (acc : List (String × List ℚ)),
      List.lookup k
          (results.foldl (fun acc fold => fold.foldl add_metric acc) acc)
        = optAppend (List.lookup k acc) (metric_values results k) := by
  intro results
  induction results with
  | nil => intro acc; rfl
  | cons fold rest ih =>
    intro acc
    simp only [List.foldl_cons]
    rw [ih, lookup_foldl_add_metric, optAppend_append]
    simp [metric_values]

lemma lookup_all_metrics (results : List (List (String × ℚ))) (k : String) :
    List.lookup k (all_metrics results)
      = optAppend none (metric_values results k) :=
  lookup_all_metrics_go k results []

lemma mem_of_lookup_eq_some {k : String} {l : List (String × List ℚ)}
    {vs : List ℚ} (h : List.lookup k l = some vs) : (k, vs) ∈ l := by
  induction l with
  | nil => simp [List.lookup] at h
  | cons e rest ih =>
    rw [List.lookup] at h
    split at h
    · cases h
      rename_i heq
      have hk : k = e.1 := by simpa using heq
      exact List.mem_cons.mpr (Or.inl (by rw [hk]))
    · exact List.mem_cons.mpr (Or.inr (ih h))

/-- C8: after collecting the folds' metric mappings, for every metric name the
driver's report contains an entry pairing that name with the arithmetic mean of
the metric's per-fold values and twice their standard deviation. -/
theorem aggregate_mean_two_std :
    ∀ (results : List (List (String × ℚ))) (k : String) (vs : List ℚ),
      metric_values results k = vs → vs ≠ [] →
      (k, (np_mean vs, 2 * Real.sqrt (np_var vs))) ∈ aggregate_report results := by
  intro results k vs hvs hne
  have hlook : List.lookup k (all_metrics results) = some vs := by
    rw [lookup_all_metrics, hvs]
    cases vs with
    | nil => exact absurd rfl hne
    | cons v vs => rfl
  have hmem : (k, vs) ∈ all_metrics results := mem_of_lookup_eq_some hlook
  have hmem2 : (k, vs)
      ∈ (all_metrics results).mergeSort (fun a b => a.1 ≤ b.1) :=
    (List.mergeSort_perm _ _).mem_iff.mpr hmem
  exact List.mem_map.mpr ⟨(k, vs), hmem2, rfl⟩

/-- Witness for the hypotheses of aggregate_mean_two_std at a concrete input:
per-fold values 1 and 0 for F1 give mean 1/2 and twice-standard-deviation 1. -/
theorem aggregate_mean_two_std_witness :
    ("F1", ((1 : ℚ)/2, (1 : ℝ)))
      ∈ aggregate_report [[("F1", 1)], [("F1", 0)]] := by
  have h := aggregate_mean_two_std [[("F1", 1)], [("F1", 0)]] "F1" [1, 0]
    (by decide) (by decide)
  have hmean : np_mean [1, 0] = 1/2 := by
    norm_num [np_mean]
  have hvar : np_var [1, 0] = 1/4 := by
    norm_num [np_var, np_mean]
  rw [hmean, hvar] at h
  have hsq : (2 : ℝ) * Real.sqrt (((1 : ℚ)/4 : ℚ) : ℝ) = 1 := by
    have h4 : (((1 : ℚ)/4 : ℚ) : ℝ) = (1/2 : ℝ)^2 := by norm_num
    rw [h4, Real.sqrt_sq (by norm_num)]
    norm_num
  rw [hsq] at h
  exact h

end Soft404
